/-
Verification of the Neurolink chunked-transfer session manager
(src/src/rust/transfer/mod.rs) against its natural-language specification.

The Rust module is shallowly embedded: the `HashMap`s become association
lists with replace-on-insert semantics, `u64` arithmetic becomes `Nat`
arithmetic reduced modulo `2 ^ 64` exactly where the Rust operators wrap,
the SHA-256 digest supplied by the external `sha2` crate is an arbitrary
function parameter `hash : List Nat → String` (its streaming `update`
contract means the whole-file digest is `hash` of the concatenated bytes),
and the fallible file-system operations are driven by an explicit `ioOk`
flag plus a parameter describing the indeterminate content left in the
destination file when reassembly aborts half-way.
-/
import Mathlib

namespace Neurolink

/-! ## Association-list maps (model of `std::collections::HashMap`) -/

/-- Look up a key in an association list; models `HashMap::get`. -/
def mapGet {κ α : Type} [BEq κ] (k : κ) (m : List (κ × α)) : Option α :=
  (m.find? (fun p => p.1 == k)).map Prod.snd

/-- Insert a key/value pair, replacing the pair already stored under the
same key when there is one; models `HashMap::insert`. -/
def mapInsert {κ α : Type} [BEq κ] (k : κ) (v : α) (m : List (κ × α)) :
    List (κ × α) :=
  if m.any (fun p => p.1 == k) then
    m.map (fun p => if p.1 == k then (k, v) else p)
  else m ++ [(k, v)]

/-- Remove the pair stored under a key; models `HashMap::remove`. -/
def mapRemove {κ α : Type} [BEq κ] (k : κ) (m : List (κ × α)) :
    List (κ × α) :=
  m.filter (fun p => ¬ p.1 == k)

theorem mapGet_nil {κ α : Type} [BEq κ] (k : κ) :
    mapGet k ([] : List (κ × α)) = none := rfl

theorem mapGet_cons_of_pos {κ α : Type} [BEq κ] (k : κ) (q : κ × α)
    (t : List (κ × α)) (h : (q.1 == k) = true) :
    mapGet k (q :: t) = some q.2 := by
  unfold mapGet
  rw [List.find?_cons_of_pos (p := fun r => r.1 == k) t h]
  rfl

theorem mapGet_cons_of_neg {κ α : Type} [BEq κ] (k : κ) (q : κ × α)
    (t : List (κ × α)) (h : ¬ (q.1 == k) = true) :
    mapGet k (q :: t) = mapGet k t := by
  unfold mapGet
  rw [List.find?_cons_of_neg (p := fun r => r.1 == k) t h]

theorem mapGet_ne_none_iff_any {κ α : Type} [BEq κ] [LawfulBEq κ]
    (k : κ) (m : List (κ × α)) :
    mapGet k m ≠ none ↔ m.any (fun p => p.1 == k) = true := by
  induction m with
  | nil => simp [mapGet_nil]
  | cons q t ih =>
    by_cases hq : (q.1 == k) = true
    · rw [mapGet_cons_of_pos k q t hq]
      simp [List.any_cons, hq]
    · rw [mapGet_cons_of_neg k q t hq]
      have hqf : (q.1 == k) = false := Bool.eq_false_iff.mpr hq
      simp only [List.any_cons, hqf, Bool.false_or]
      exact ih

theorem mapGet_mapInsert_self {κ α : Type} [BEq κ] [LawfulBEq κ]
    (k : κ) (v : α) (m : List (κ × α)) :
    mapGet k (mapInsert k v m) = some v := by
  unfold mapInsert
  by_cases hany : m.any (fun p => p.1 == k) = true
  · rw [if_pos hany]
    induction m with
    | nil => simp at hany
    | cons p t ih =>
      by_cases hp : (p.1 == k) = true
      · simp only [List.map_cons, if_pos hp]
        exact mapGet_cons_of_pos k (k, v) _ (by simp)
      · have hpf : (p.1 == k) = false := Bool.eq_false_iff.mpr hp
        simp only [List.any_cons, hpf, Bool.false_or] at hany
        simp only [List.map_cons, if_neg hp]
        rw [mapGet_cons_of_neg k p _ hp]
        exact ih hany
  · rw [if_neg hany]
    have hnone : m.find? (fun p => p.1 == k) = none := by
      rw [List.find?_eq_none]
      intro p hp
      intro hk
      exact hany (List.any_eq_true.mpr ⟨p, hp, hk⟩)
    simp [mapGet, List.find?_append, hnone]

theorem mapGet_mapInsert_ne {κ α : Type} [BEq κ] [LawfulBEq κ]
    (k k' : κ) (v : α) (m : List (κ × α)) (hne : ¬ k' = k) :
    mapGet k' (mapInsert k v m) = mapGet k' m := by
  unfold mapInsert
  by_cases hany : m.any (fun p => p.1 == k) = true
  · rw [if_pos hany]
    clear hany
    induction m with
    | nil => rfl
    | cons p t ih =>
      by_cases hp : (p.1 == k) = true
      · have hpk : p.1 = k := beq_iff_eq.mp hp
        have h1 : ¬ ((k, v).1 == k') = true := by
          simp only [beq_iff_eq]
          intro h; exact hne h.symm
        have h2 : ¬ (p.1 == k') = true := by
          simp only [beq_iff_eq, hpk]
          intro h; exact hne h.symm
        simp only [List.map_cons, if_pos hp]
        rw [mapGet_cons_of_neg k' (k, v) _ h1, mapGet_cons_of_neg k' p _ h2]
        exact ih
      · simp only [List.map_cons, if_neg hp]
        by_cases hq : (p.1 == k') = true
        · rw [mapGet_cons_of_pos k' p _ hq, mapGet_cons_of_pos k' p _ hq]
        · rw [mapGet_cons_of_neg k' p _ hq, mapGet_cons_of_neg k' p _ hq]
          exact ih
  · rw [if_neg hany]
    have h1 : ([(k, v)].find? (fun p => p.1 == k')) = none := by
      simp only [List.find?]
      have : (k == k') = false := by
        rw [beq_eq_false_iff_ne, ne_eq]
        intro h; exact hne h.symm
      simp [this]
    simp only [mapGet, List.find?_append, h1, Option.or_none]

theorem length_mapInsert_of_mem {κ α : Type} [BEq κ]
    (k : κ) (v : α) (m : List (κ × α))
    (h : m.any (fun p => p.1 == k) = true) :
    (mapInsert k v m).length = m.length := by
  simp [mapInsert, h]

theorem length_mapInsert_of_not_mem {κ α : Type} [BEq κ]
    (k : κ) (v : α) (m : List (κ × α))
    (h : ¬ m.any (fun p => p.1 == k) = true) :
    (mapInsert k v m).length = m.length + 1 := by
  simp [mapInsert, h]

theorem keys_mapInsert_of_mem {κ α : Type} [BEq κ] [LawfulBEq κ]
    (k : κ) (v : α) (m : List (κ × α))
    (h : m.any (fun p => p.1 == k) = true) :
    (mapInsert k v m).map Prod.fst = m.map Prod.fst := by
  simp only [mapInsert, h, if_true, List.map_map]
  apply List.map_congr_left
  intro p _
  by_cases hp : p.1 == k
  · have : p.1 = k := beq_iff_eq.mp hp
    simp [Function.comp, hp, this]
  · simp [Function.comp, hp]

theorem keys_mapInsert_of_not_mem {κ α : Type} [BEq κ]
    (k : κ) (v : α) (m : List (κ × α))
    (h : ¬ m.any (fun p => p.1 == k) = true) :
    (mapInsert k v m).map Prod.fst = m.map Prod.fst ++ [k] := by
  simp [mapInsert, h]

theorem mapGet_mapRemove_self {κ α : Type} [BEq κ] [LawfulBEq κ]
    (k : κ) (m : List (κ × α)) :
    mapGet k (mapRemove k m) = none := by
  unfold mapGet mapRemove
  rw [Option.map_eq_none', List.find?_eq_none]
  intro p hp hk
  rw [List.mem_filter] at hp
  have h2 := hp.2
  rw [decide_eq_true_eq] at h2
  exact h2 hk

/-! ## Injectivity of decimal formatting

The transfer id is produced by `format!("trans_{}", millis)`, i.e. by
`Nat.repr` in the embedding.  To settle claim C4 we need that distinct
millisecond values give distinct id strings, so we prove `Nat.repr`
injective by exhibiting the decimal value of the produced digit string. -/

/-- Numeric value of a decimal digit character. -/
def digitVal (c : Char) : Nat := c.toNat - 48

/-- Decimal value of a digit string (most significant digit first). -/
def strVal (l : List Char) : Nat := l.foldl (fun a c => a * 10 + digitVal c) 0

theorem digitVal_digitChar (r : Nat) (h : r < 10) :
    digitVal (Nat.digitChar r) = r := by
  interval_cases r <;> rfl

theorem strVal_append_singleton (l : List Char) (c : Char) :
    strVal (l ++ [c]) = strVal l * 10 + digitVal c := by
  simp [strVal, List.foldl_append]

theorem toDigitsCore_acc (fuel : Nat) : ∀ (n : Nat) (ds : List Char),
    Nat.toDigitsCore 10 fuel n ds = Nat.toDigitsCore 10 fuel n [] ++ ds := by
  induction fuel with
  | zero => intro n ds; simp [Nat.toDigitsCore]
  | succ f ih =>
    intro n ds
    simp only [Nat.toDigitsCore]
    by_cases h : n / 10 = 0
    · simp [h]
    · rw [if_neg h, if_neg h, ih (n / 10) (Nat.digitChar (n % 10) :: ds),
        ih (n / 10) [Nat.digitChar (n % 10)], List.append_assoc]
      rfl

theorem toDigitsCore_fuel_irrel (fuel : Nat) :
    ∀ (fuel' n : Nat) (ds : List Char), 0 < fuel → 0 < fuel' →
      n < 10 ^ fuel → n < 10 ^ fuel' →
      Nat.toDigitsCore 10 fuel n ds = Nat.toDigitsCore 10 fuel' n ds := by
  induction fuel with
  | zero => intro fuel' n ds h; exact absurd h (by simp)
  | succ f ih =>
    intro fuel' n ds _ hf' hn hn'
    rcases fuel' with _ | f'
    · exact absurd hf' (by simp)
    · simp only [Nat.toDigitsCore]
      by_cases h : n / 10 = 0
      · simp [h]
      · rw [if_neg h, if_neg h]
        have h10 : 10 ≤ n := by
          by_contra hlt
          exact h (Nat.div_eq_of_lt (by omega))
        have hfpos : 0 < f := by
          rcases Nat.eq_zero_or_pos f with hf0 | hf0
          · subst hf0; simp at hn; omega
          · exact hf0
        have hf'pos : 0 < f' := by
          rcases Nat.eq_zero_or_pos f' with hf0 | hf0
          · subst hf0; simp at hn'; omega
          · exact hf0
        have hb1 : n / 10 < 10 ^ f := by
          rw [Nat.div_lt_iff_lt_mul (by omega)]
          calc n < 10 ^ (f + 1) := hn
            _ = 10 ^ f * 10 := by rw [Nat.pow_succ]
        have hb2 : n / 10 < 10 ^ f' := by
          rw [Nat.div_lt_iff_lt_mul (by omega)]
          calc n < 10 ^ (f' + 1) := hn'
            _ = 10 ^ f' * 10 := by rw [Nat.pow_succ]
        exact ih f' (n / 10) _ hfpos hf'pos hb1 hb2

theorem strVal_toDigitsCore (fuel : Nat) : ∀ (n : Nat), n < 10 ^ fuel →
    0 < fuel → strVal (Nat.toDigitsCore 10 fuel n []) = n := by
  induction fuel with
  | zero => intro n _ h; exact absurd h (by simp)
  | succ f ih =>
    intro n hn _
    simp only [Nat.toDigitsCore]
    by_cases h : n / 10 = 0
    · rw [if_pos h]
      have hlt : n < 10 := by
        by_contra hge
        have : 0 < n / 10 := Nat.div_pos (by omega) (by omega)
        omega
      have hmod : n % 10 = n := Nat.mod_eq_of_lt hlt
      simp only [strVal, List.foldl_cons, List.foldl_nil, Nat.zero_mul,
        Nat.zero_add, hmod]
      exact digitVal_digitChar n hlt
    · rw [if_neg h]
      rw [toDigitsCore_acc f (n / 10) [Nat.digitChar (n % 10)]]
      rw [strVal_append_singleton]
      have h10 : 10 ≤ n := by
        by_contra hlt
        exact h (Nat.div_eq_of_lt (by omega))
      have hfpos : 0 < f := by
        rcases Nat.eq_zero_or_pos f with hf0 | hf0
        · subst hf0; simp at hn; omega
        · exact hf0
      have hb : n / 10 < 10 ^ f := by
        rw [Nat.div_lt_iff_lt_mul (by omega)]
        calc n < 10 ^ (f + 1) := hn
          _ = 10 ^ f * 10 := by rw [Nat.pow_succ]
      rw [ih (n / 10) hb hfpos]
      rw [digitVal_digitChar (n % 10) (Nat.mod_lt n (by omega))]
      omega

theorem strVal_toDigits (n : Nat) : strVal (Nat.toDigits 10 n) = n := by
  unfold Nat.toDigits
  exact strVal_toDigitsCore (n + 1) n
    (lt_of_lt_of_le (Nat.lt_pow_self (by omega) n)
      (Nat.pow_le_pow_right (by omega) (Nat.le_succ n))) (Nat.succ_pos n)

theorem natRepr_injective : Function.Injective Nat.repr := by
  intro a b hab
  unfold Nat.repr at hab
  have hl : Nat.toDigits 10 a = Nat.toDigits 10 b := by
    have := congrArg String.data hab
    simpa [List.asString] using this
  calc a = strVal (Nat.toDigits 10 a) := (strVal_toDigits a).symm
    _ = strVal (Nat.toDigits 10 b) := by rw [hl]
    _ = b := strVal_toDigits b

/-! ## Data model (struct and enum definitions of `transfer/mod.rs`) -/

/-- Modulus of Rust `u64` arithmetic. -/
def U64 : Nat := 2 ^ 64

/-- Wrapping `u64` addition, as performed by `+` in a release build. -/
def u64add (a b : Nat) : Nat := (a + b) % U64

/-- Wrapping `u64` subtraction, as performed by `-` in a release build. -/
def u64sub (a b : Nat) : Nat := (a + U64 - b) % U64

/-- Enum `TransferStatus`.  The digest strings produced by the `sha2`
crate are kept abstract, so `Completed` simply stores the string. -/
inductive TransferStatus : Type where
  | Pending : TransferStatus
  | InProgress (received_chunks : Nat) : TransferStatus
  | Completed (final_hash : String) : TransferStatus
  | Failed (reason : String) : TransferStatus
deriving DecidableEq, Repr

/-- Struct `ChunkInfo`: per-index record of the last received chunk. -/
structure ChunkInfo : Type where
  index : Nat
  hash : String
  size : Nat
deriving DecidableEq, Repr

/-- Struct `TransferMetadata`.  `total_size` is a `u64`, `chunk_size`
and `total_chunks` are `usize` (64-bit target), all embedded as `Nat`. -/
structure TransferMetadata : Type where
  id : String
  filename : String
  total_size : Nat
  chunk_size : Nat
  total_chunks : Nat
  batch_id : Option String
  created_at : String
  status : TransferStatus
deriving DecidableEq, Repr

/-- Struct `Transfer`: metadata, the `received_chunks` map, and the
scratch files `chunk_<i>.tmp` of its `TempDir` (index ↦ bytes). -/
structure Transfer : Type where
  metadata : TransferMetadata
  received_chunks : List (Nat × ChunkInfo)
  tempFiles : List (Nat × List Nat)
deriving DecidableEq, Repr

/-- Struct `CompletedUpload`: one record of the append-only history. -/
structure CompletedUpload : Type where
  batch_id : String
  name : String
  size : Nat
  uploaded_at : String
deriving DecidableEq, Repr

/-- Struct `UploadedFile` (payload of a batch listing). -/
structure UploadedFile : Type where
  name : String
  size : Nat
  uploaded_at : String
deriving DecidableEq, Repr

/-- Struct `UploadBatch` (one entry returned by `list_upload_batches`). -/
structure UploadBatch : Type where
  batch_id : String
  uploaded_at : String
  files : List UploadedFile
deriving DecidableEq, Repr

/-- Struct `TransferManager`: the registry of active sessions, the
completed-upload history, and the files of the storage directory
(filename ↦ bytes). -/
structure TransferManager : Type where
  transfers : List (String × Transfer)
  completed_uploads : List CompletedUpload
  storage : List (String × List Nat)
deriving DecidableEq, Repr

/-- Enum `TransferError`.  `IoError` stands for the `Io` variant wrapping
`std::io::Error`; `Anyhow` stands for a bare `anyhow::anyhow!` message as
returned by `init_transfer` for a zero chunk size. -/
inductive TransferError : Type where
  | TransferNotFound (id : String) : TransferError
  | ChunkOutOfOrder (expected got : Nat) : TransferError
  | InvalidChunkHash : TransferError
  | FileTooLarge : TransferError
  | IoError (msg : String) : TransferError
  | Anyhow (msg : String) : TransferError
deriving DecidableEq, Repr

/-! ## Operations of `TransferManager` -/

/-- Id string built by `format!("trans_{}", Utc::now().timestamp_millis())`. -/
def mkTransferId (nowMillis : Nat) : String := "trans_" ++ Nat.repr nowMillis

/-- Chunk count `((total_size + chunk_size as u64 - 1) / chunk_size as u64) as usize`
with the wrapping `u64` addition and subtraction of a release build. -/
def computeTotalChunks (total_size chunk_size : Nat) : Nat :=
  u64sub (u64add total_size chunk_size) 1 / chunk_size

/-- Method `TransferManager::init_transfer`.  The clock readings
`nowMillis` (for the id) and `nowRfc` (for `created_at`) are explicit
parameters. -/
def initTransfer (m : TransferManager) (nowMillis : Nat) (nowRfc : String)
    (filename : String) (total_size chunk_size : Nat)
    (batch_id : Option String) :
    Except TransferError String × TransferManager :=
  if chunk_size = 0 then
    (Except.error (TransferError.Anyhow "chunk_size must be greater than 0"), m)
  else
    let transfer_id := mkTransferId nowMillis
    let total_chunks := computeTotalChunks total_size chunk_size
    let metadata : TransferMetadata :=
      { id := transfer_id, filename := filename, total_size := total_size,
        chunk_size := chunk_size, total_chunks := total_chunks,
        batch_id := batch_id, created_at := nowRfc,
        status := TransferStatus.Pending }
    let transfer : Transfer :=
      { metadata := metadata, received_chunks := [], tempFiles := [] }
    (Except.ok transfer_id,
     { m with transfers := mapInsert transfer_id transfer m.transfers })

/-- Session after a successful chunk receipt: the scratch file for the
index is (over)written, the `ChunkInfo` record is inserted (replacing any
prior record for the index), and the status becomes `InProgress` with the
resulting distinct-index count. -/
def applyChunk (hash : List Nat → String) (t : Transfer) (chunk_index : Nat)
    (chunk_data : List Nat) : Transfer :=
  let chunk_info : ChunkInfo :=
    { index := chunk_index, hash := hash chunk_data,
      size := chunk_data.length }
  let rc := mapInsert chunk_index chunk_info t.received_chunks
  { metadata := { t.metadata with
      status := TransferStatus.InProgress rc.length },
    received_chunks := rc,
    tempFiles := mapInsert chunk_index chunk_data t.tempFiles }

/-- Method `TransferManager::receive_chunk`.  `hash` is the digest
function realised by the `sha2` crate (`hex::encode` of SHA-256); `ioOk`
tells whether the scratch-file create/write/sync succeeds — on failure
the method returns early with the wrapped I/O error before touching the
session's maps or status. -/
def receiveChunk (hash : List Nat → String) (m : TransferManager)
    (ioOk : Bool) (transfer_id : String) (chunk_index : Nat)
    (chunk_data : List Nat) :
    Except TransferError String × TransferManager :=
  match mapGet transfer_id m.transfers with
  | none => (Except.error (TransferError.TransferNotFound transfer_id), m)
  | some transfer =>
    if transfer.metadata.total_chunks ≤ chunk_index then
      (Except.error (TransferError.ChunkOutOfOrder
        transfer.metadata.total_chunks chunk_index), m)
    else
      let h := hash chunk_data
      if ioOk = false then
        (Except.error (TransferError.IoError "chunk write failed"), m)
      else
        (Except.ok h,
         { m with transfers := (mapInsert transfer_id
             (applyChunk hash transfer chunk_index chunk_data)
             m.transfers) })

/-- Bytes obtained by reading `chunk_0.tmp .. chunk_(total_chunks-1).tmp`
in ascending order and concatenating them; `none` when some scratch file
is missing (its `File::open` would fail). -/
def reassembleChunks (t : Transfer) : Option (List Nat) :=
  if (List.range t.metadata.total_chunks).all
      (fun i => (mapGet i t.tempFiles).isSome) then
    some (((List.range t.metadata.total_chunks).map
      (fun i => (mapGet i t.tempFiles).getD [])).flatten)
  else none

/-- Method `TransferManager::complete_transfer`.  All file-system work
(creating the destination, the read/write loop, the final sync) happens
after the count check and before any state mutation; `ioOk = false`, or a
missing scratch file, models that work failing, in which case the method
returns the wrapped I/O error leaving the registry, the session and the
history untouched — only the destination file holds indeterminate bytes,
supplied here as `truncOpt` (`none` when the destination was never
created).  On success the destination file holds the concatenation, the
status becomes `Completed` with the digest of the concatenation (the
streamed `Sha256::update` calls hash exactly those bytes), a
`CompletedUpload` is appended — with batch id `single_<id>` when the
caller supplied none — and the session is removed. -/
def completeTransfer (hash : List Nat → String) (m : TransferManager)
    (ioOk : Bool) (truncOpt : Option (List Nat)) (nowRfc : String)
    (transfer_id : String) :
    Except TransferError TransferMetadata × TransferManager :=
  match mapGet transfer_id m.transfers with
  | none => (Except.error (TransferError.TransferNotFound transfer_id), m)
  | some transfer =>
    if transfer.received_chunks.length ≠ transfer.metadata.total_chunks then
      (Except.error (TransferError.ChunkOutOfOrder
        transfer.metadata.total_chunks transfer.received_chunks.length), m)
    else
      match reassembleChunks transfer with
      | none =>
        (Except.error (TransferError.IoError "reassembly failed"),
         { m with storage :=
             match truncOpt with
             | none => m.storage
             | some bs => mapInsert transfer.metadata.filename bs m.storage })
      | some content =>
        if ioOk = false then
          (Except.error (TransferError.IoError "reassembly failed"),
           { m with storage :=
               match truncOpt with
               | none => m.storage
               | some bs => mapInsert transfer.metadata.filename bs m.storage })
        else
          let final_hash := hash content
          let metadata : TransferMetadata :=
            { transfer.metadata with
                status := TransferStatus.Completed final_hash }
          let record : CompletedUpload :=
            { batch_id := transfer.metadata.batch_id.getD
                ("single_" ++ transfer.metadata.id),
              name := transfer.metadata.filename,
              size := transfer.metadata.total_size,
              uploaded_at := nowRfc }
          (Except.ok metadata,
           { transfers := mapRemove transfer_id m.transfers,
             completed_uploads := m.completed_uploads ++ [record],
             storage := mapInsert transfer.metadata.filename content
               m.storage })

/-- Method `TransferManager::get_transfer_status`. -/
def getTransferStatus (m : TransferManager) (transfer_id : String) :
    Option TransferMetadata :=
  (mapGet transfer_id m.transfers).map Transfer.metadata

/-- Method `TransferManager::cancel_transfer`. -/
def cancelTransfer (m : TransferManager) (transfer_id : String) :
    Except TransferError Unit × TransferManager :=
  match mapGet transfer_id m.transfers with
  | none => (Except.error (TransferError.TransferNotFound transfer_id), m)
  | some _ =>
    (Except.ok (), { m with transfers := mapRemove transfer_id m.transfers })

/-- Comparator `|a, b| a.uploaded_at.cmp(&b.uploaded_at)` used to sort a
batch's files ascending by completion time (RFC 3339 strings compare
lexicographically). -/
def uploadLe (a b : CompletedUpload) : Bool :=
  decide (a.uploaded_at ≤ b.uploaded_at)

/-- Comparator `|a, b| b.uploaded_at.cmp(&a.uploaded_at)` used to sort
batches descending by their `uploaded_at`. -/
def batchDescLe (a b : UploadBatch) : Bool :=
  decide (b.uploaded_at ≤ a.uploaded_at)

/-- Files grouped under one batch id, sorted ascending by completion
time (`sort_by` in Rust is a stable sort, as is `mergeSort`). -/
def groupFiles (m : TransferManager) (bid : String) :
    List CompletedUpload :=
  (m.completed_uploads.filter (fun u => u.batch_id == bid)).mergeSort
    uploadLe

/-- One entry of the listing: `uploaded_at` is the last (latest) sorted
file's completion time, with the `Utc::now()` fallback `nowRfc` for an
empty group (unreachable for groups formed from the history). -/
def mkBatch (m : TransferManager) (nowRfc : String) (bid : String) :
    UploadBatch :=
  { batch_id := bid,
    uploaded_at := (((groupFiles m bid).getLast?).map
      CompletedUpload.uploaded_at).getD nowRfc,
    files := (groupFiles m bid).map
      (fun f => UploadedFile.mk f.name f.size f.uploaded_at) }

/-- Method `TransferManager::list_upload_batches`.  The iteration order
of the grouping `HashMap` is modelled by taking each distinct batch id
once (`dedup`); the subsequent sort fixes the observable order up to
ties. -/
def listUploadBatches (m : TransferManager) (nowRfc : String) :
    List UploadBatch :=
  (((m.completed_uploads.map CompletedUpload.batch_id).dedup).map
    (mkBatch m nowRfc)).mergeSort batchDescLe

instance exceptDecEq {ε α : Type} [DecidableEq ε] [DecidableEq α] :
    DecidableEq (Except ε α) := fun x y =>
  match x, y with
  | Except.ok a, Except.ok b =>
      if h : a = b then Decidable.isTrue (h ▸ rfl)
      else Decidable.isFalse (fun he => h (Except.ok.inj he))
  | Except.error a, Except.error b =>
      if h : a = b then Decidable.isTrue (h ▸ rfl)
      else Decidable.isFalse (fun he => h (Except.error.inj he))
  | Except.ok _, Except.error _ =>
      Decidable.isFalse (fun he => Except.noConfusion he)
  | Except.error _, Except.ok _ =>
      Decidable.isFalse (fun he => Except.noConfusion he)

/-! ## Registry invariant -/

/-- Well-formedness maintained for every session in the registry: the
received-chunk keys are distinct, each key is a valid index, and each
received index has its scratch file. -/
def TransferWF (t : Transfer) : Prop :=
  (t.received_chunks.map Prod.fst).Nodup ∧
  (∀ p ∈ t.received_chunks, p.1 < t.metadata.total_chunks) ∧
  (∀ p ∈ t.received_chunks, mapGet p.1 t.tempFiles ≠ none)

instance (t : Transfer) : Decidable (TransferWF t) := by
  unfold TransferWF
  infer_instance

theorem keys_full_of_length_eq (l : List Nat) (n : Nat) (hnd : l.Nodup)
    (hlt : ∀ x ∈ l, x < n) (hlen : l.length = n) :
    l.toFinset = Finset.range n := by
  apply Finset.eq_of_subset_of_card_le
  · intro x hx
    rw [List.mem_toFinset] at hx
    rw [Finset.mem_range]
    exact hlt x hx
  · rw [Finset.card_range, List.toFinset_card_of_nodup hnd, hlen]

theorem length_eq_of_keys_full (l : List Nat) (n : Nat) (hnd : l.Nodup)
    (hfull : l.toFinset = Finset.range n) : l.length = n := by
  rw [← List.toFinset_card_of_nodup hnd, hfull, Finset.card_range]

theorem any_beq_of_mem_keys {l : List (Nat × α)} {i : Nat}
    (h : i ∈ l.map Prod.fst) : l.any (fun p => p.1 == i) = true := by
  rw [List.mem_map] at h
  rcases h with ⟨p, hp, hpi⟩
  exact List.any_eq_true.mpr ⟨p, hp, by simp [hpi]⟩

theorem reassembleChunks_isSome (t : Transfer) (hwf : TransferWF t)
    (hfull : (t.received_chunks.map Prod.fst).toFinset =
      Finset.range t.metadata.total_chunks) :
    reassembleChunks t =
      some (((List.range t.metadata.total_chunks).map
        (fun i => (mapGet i t.tempFiles).getD [])).flatten) := by
  unfold reassembleChunks
  rw [if_pos]
  rw [List.all_eq_true]
  intro i hi
  rw [List.mem_range] at hi
  have hikeys : i ∈ t.received_chunks.map Prod.fst := by
    rw [← List.mem_toFinset, hfull, Finset.mem_range]
    exact hi
  rw [List.mem_map] at hikeys
  rcases hikeys with ⟨p, hp, hpi⟩
  have := hwf.2.2 p hp
  rw [hpi] at this
  rw [Option.isSome_iff_ne_none]
  exact this

/-! ## Claim C5: total_chunks versus exact ceiling division -/

/-- Claim C5 (counterexample): at `total_size = 2^64 - 1` and
`chunk_size = 2` the wrapping addition makes `init_transfer` compute
`total_chunks = 0`, which does not cover the declared size, so
`total_chunks` is not the exact ceiling `2^63`. -/
theorem totalChunks_wrap_counterexample :
    computeTotalChunks (2 ^ 64 - 1) 2 = 0 ∧
    ¬ ((2 ^ 64 - 1 : Nat) ≤ computeTotalChunks (2 ^ 64 - 1) 2 * 2) := by
  constructor
  · decide
  · intro h
    rw [(by decide : computeTotalChunks (2 ^ 64 - 1) 2 = 0)] at h
    omega

theorem u64_numerator_eq (total_size chunk_size : Nat) (hcs : 0 < chunk_size)
    (hnowrap : total_size + chunk_size - 1 < U64) :
    u64sub (u64add total_size chunk_size) 1 = total_size + chunk_size - 1 := by
  have h64 : U64 = 18446744073709551616 := by norm_num [U64]
  unfold u64sub u64add
  rw [h64] at hnowrap ⊢
  omega

/-- Claim C5 (amended): whenever `chunk_size > 0` and the `u64` addition
`total_size + chunk_size - 1` does not wrap (i.e. it stays below `2^64`),
the computed `total_chunks` is the exact ceiling of
`total_size / chunk_size`: it is the least count whose chunks cover the
declared size. -/
theorem totalChunks_eq_ceil (total_size chunk_size : Nat)
    (hcs : 0 < chunk_size) (hnowrap : total_size + chunk_size - 1 < U64) :
    total_size ≤ computeTotalChunks total_size chunk_size * chunk_size ∧
    ∀ k : Nat, total_size ≤ k * chunk_size →
      computeTotalChunks total_size chunk_size ≤ k := by
  unfold computeTotalChunks
  rw [u64_numerator_eq total_size chunk_size hcs hnowrap]
  constructor
  · have hdm := Nat.div_add_mod (total_size + chunk_size - 1) chunk_size
    have hr := Nat.mod_lt (total_size + chunk_size - 1) hcs
    rw [Nat.mul_comm]
    omega
  · intro k hk
    have hlt : (total_size + chunk_size - 1) / chunk_size < k + 1 := by
      rw [Nat.div_lt_iff_lt_mul hcs, Nat.succ_mul]
      omega
    omega

/-- Witness for `totalChunks_eq_ceil` at `total_size = 1500`,
`chunk_size = 1000`. -/
theorem totalChunks_eq_ceil_witness :
    (0 < 1000 ∧ 1500 + 1000 - 1 < U64) ∧
    (1500 ≤ computeTotalChunks 1500 1000 * 1000 ∧
     ∀ k : Nat, 1500 ≤ k * 1000 → computeTotalChunks 1500 1000 ≤ k) := by
  refine ⟨⟨by norm_num, by norm_num [U64]⟩, ?_⟩
  exact totalChunks_eq_ceil 1500 1000 (by norm_num) (by norm_num [U64])

/-! ## Claim C6: a zero-byte file -/

/-- Claim C6 (counterexample): `init_transfer` with `total_size = 0` and
`chunk_size = 1` creates a session whose `total_chunks` is `0`, not `1`
as the claim states. -/
theorem zeroSize_counterexample :
    computeTotalChunks 0 1 = 0 ∧ computeTotalChunks 0 1 ≠ 1 ∧
    (initTransfer ⟨[], [], []⟩ 0 "now" "f" 0 1 none).2.transfers.map
      (fun p => p.2.metadata.total_chunks) = [0] := by
  refine ⟨by decide, by decide, ?_⟩
  rfl

/-- Claim C6 (amended): for every `init_transfer` call with
`total_size = 0` and any valid `chunk_size > 0` (a `usize`, hence below
`2^64`), the computed `total_chunks` equals `0`: a zero-byte file yields
no chunk under the ceiling-division formula as implemented. -/
theorem zeroSize_yields_zero_chunks (chunk_size : Nat) (h1 : 0 < chunk_size)
    (h2 : chunk_size < U64) : computeTotalChunks 0 chunk_size = 0 := by
  unfold computeTotalChunks
  rw [u64_numerator_eq 0 chunk_size h1 (by omega)]
  exact Nat.div_eq_of_lt (by omega)

/-- Witness for `zeroSize_yields_zero_chunks` at `chunk_size = 1024`. -/
theorem zeroSize_yields_zero_chunks_witness :
    (0 < 1024 ∧ 1024 < U64) ∧ computeTotalChunks 0 1024 = 0 := by
  refine ⟨⟨by norm_num, by norm_num [U64]⟩, ?_⟩
  exact zeroSize_yields_zero_chunks 1024 (by norm_num) (by norm_num [U64])

/-! ## Concrete fixtures used by witnesses -/

/-- Digest function fixture standing in for hex-encoded SHA-256. -/
def wHash : List Nat → String := fun bs => "h" ++ Nat.repr bs.length

/-- Session fixture: two chunks of five bytes expected, none received. -/
def wTransfer : Transfer :=
  { metadata :=
      { id := "trans_1", filename := "f.bin", total_size := 10,
        chunk_size := 5, total_chunks := 2, batch_id := none,
        created_at := "t0", status := TransferStatus.Pending },
    received_chunks := [], tempFiles := [] }

/-- Manager fixture holding only `wTransfer`. -/
def wManager : TransferManager :=
  { transfers := [("trans_1", wTransfer)], completed_uploads := [],
    storage := [] }

/-! ## Claim C8: out-of-range chunk index -/

/-- Claim C8: for every existing session and every `index ≥ total_chunks`,
`receive_chunk` fails with the out-of-range error carrying the expected
count (`total_chunks`) and the offending index, and the whole manager —
`received_count`, chunk records, stored bytes and status — is returned
exactly as it was. -/
theorem receiveChunk_out_of_range (hash : List Nat → String)
    (m : TransferManager) (ioOk : Bool) (tid : String) (i : Nat)
    (bs : List Nat) (t : Transfer)
    (hfind : mapGet tid m.transfers = some t)
    (hidx : t.metadata.total_chunks ≤ i) :
    receiveChunk hash m ioOk tid i bs =
      (Except.error (TransferError.ChunkOutOfOrder
        t.metadata.total_chunks i), m) := by
  unfold receiveChunk
  rw [hfind]
  simp only [if_pos hidx]

/-- Witness for `receiveChunk_out_of_range`: index 5 against a 2-chunk
session. -/
theorem receiveChunk_out_of_range_witness :
    (mapGet "trans_1" wManager.transfers = some wTransfer ∧
     wTransfer.metadata.total_chunks ≤ 5) ∧
    receiveChunk wHash wManager true "trans_1" 5 [1, 2] =
      (Except.error (TransferError.ChunkOutOfOrder 2 5), wManager) := by
  refine ⟨⟨by decide, by decide⟩, ?_⟩
  exact receiveChunk_out_of_range wHash wManager true "trans_1" 5 [1, 2]
    wTransfer (by decide) (by decide)

/-! ## Claim C9: resending an already received index -/

/-- Claim C9: submitting a chunk for an index that was already received
replaces the stored bytes, hash and size recorded for that index and does
not increase `received_count`: the map keeps its length, the status is
`InProgress` with that same length, and every other index is untouched. -/
theorem receiveChunk_duplicate_index (hash : List Nat → String)
    (m : TransferManager) (tid : String) (i : Nat) (bs : List Nat)
    (t : Transfer) (old : ChunkInfo)
    (hfind : mapGet tid m.transfers = some t)
    (hidx : i < t.metadata.total_chunks)
    (hprev : mapGet i t.received_chunks = some old) :
    ∃ t' : Transfer,
      receiveChunk hash m true tid i bs =
        (Except.ok (hash bs),
         { m with transfers := mapInsert tid t' m.transfers }) ∧
      mapGet i t'.received_chunks =
        some { index := i, hash := hash bs, size := bs.length } ∧
      mapGet i t'.tempFiles = some bs ∧
      t'.received_chunks.length = t.received_chunks.length ∧
      t'.metadata.status =
        TransferStatus.InProgress t.received_chunks.length ∧
      (∀ j, ¬ j = i → mapGet j t'.received_chunks = mapGet j t.received_chunks) ∧
      (∀ j, ¬ j = i → mapGet j t'.tempFiles = mapGet j t.tempFiles) := by
  have hany : t.received_chunks.any (fun p => p.1 == i) = true := by
    rw [← mapGet_ne_none_iff_any]
    rw [hprev]
    intro h
    exact Option.noConfusion h
  have hlen : (mapInsert i (ChunkInfo.mk i (hash bs) bs.length)
      t.received_chunks).length = t.received_chunks.length :=
    length_mapInsert_of_mem i _ t.received_chunks hany
  refine ⟨applyChunk hash t i bs, ?_, ?_, ?_, ?_, ?_, ?_, ?_⟩
  · unfold receiveChunk
    simp only [hfind]
    rw [if_neg (Nat.not_le.mpr hidx)]
    rfl
  · exact mapGet_mapInsert_self i _ t.received_chunks
  · exact mapGet_mapInsert_self i bs t.tempFiles
  · exact hlen
  · simp only [applyChunk, hlen]
  · intro j hj
    exact mapGet_mapInsert_ne i j _ t.received_chunks hj
  · intro j hj
    exact mapGet_mapInsert_ne i j bs t.tempFiles hj

/-- Session fixture with chunk 0 already received. -/
def wTransfer1 : Transfer :=
  { metadata :=
      { id := "trans_1", filename := "f.bin", total_size := 10,
        chunk_size := 5, total_chunks := 2, batch_id := none,
        created_at := "t0",
        status := TransferStatus.InProgress 1 },
    received_chunks := [(0, { index := 0, hash := "h5", size := 5 })],
    tempFiles := [(0, [9, 9, 9, 9, 9])] }

/-- Manager fixture holding only `wTransfer1`. -/
def wManager1 : TransferManager :=
  { transfers := [("trans_1", wTransfer1)], completed_uploads := [],
    storage := [] }

/-- Witness for `receiveChunk_duplicate_index`: chunk 0 resent with new
bytes. -/
theorem receiveChunk_duplicate_index_witness :
    (mapGet "trans_1" wManager1.transfers = some wTransfer1 ∧
     0 < wTransfer1.metadata.total_chunks ∧
     mapGet 0 wTransfer1.received_chunks =
       some { index := 0, hash := "h5", size := 5 }) ∧
    ∃ t' : Transfer,
      receiveChunk wHash wManager1 true "trans_1" 0 [1, 2, 3] =
        (Except.ok (wHash [1, 2, 3]),
         { wManager1 with
           transfers := mapInsert "trans_1" t' wManager1.transfers }) ∧
      mapGet 0 t'.received_chunks =
        some { index := 0, hash := wHash [1, 2, 3], size := 3 } ∧
      mapGet 0 t'.tempFiles = some [1, 2, 3] ∧
      t'.received_chunks.length = wTransfer1.received_chunks.length ∧
      t'.metadata.status =
        TransferStatus.InProgress wTransfer1.received_chunks.length ∧
      (∀ j, ¬ j = 0 → mapGet j t'.received_chunks =
        mapGet j wTransfer1.received_chunks) ∧
      (∀ j, ¬ j = 0 → mapGet j t'.tempFiles =
        mapGet j wTransfer1.tempFiles) := by
  refine ⟨⟨by decide, by decide, by decide⟩, ?_⟩
  have hlen3 : ([1, 2, 3] : List Nat).length = 3 := rfl
  have := receiveChunk_duplicate_index wHash wManager1 "trans_1" 0
    [1, 2, 3] wTransfer1 { index := 0, hash := "h5", size := 5 }
    (by decide) (by decide) (by decide)
  simpa [hlen3] using this

/-! ## Claim C7: evicted sessions reject every operation -/

/-- All five operations are rejected for an id: chunk submission,
completion and cancellation fail with `TransferNotFound`, and a status
query returns nothing. -/
def rejectsAllOps (mc : TransferManager) (tid : String) : Prop :=
  (∀ (hash : List Nat → String) (ioOk : Bool) (i : Nat) (bs : List Nat),
      (receiveChunk hash mc ioOk tid i bs).1 =
        Except.error (TransferError.TransferNotFound tid)) ∧
  (∀ (hash : List Nat → String) (ioOk : Bool)
      (truncOpt : Option (List Nat)) (now : String),
      (completeTransfer hash mc ioOk truncOpt now tid).1 =
        Except.error (TransferError.TransferNotFound tid)) ∧
  (cancelTransfer mc tid).1 =
    Except.error (TransferError.TransferNotFound tid) ∧
  getTransferStatus mc tid = none

theorem rejectsAllOps_of_mapGet_none (mc : TransferManager) (tid : String)
    (hnone : mapGet tid mc.transfers = none) : rejectsAllOps mc tid := by
  refine ⟨?_, ?_, ?_, ?_⟩
  · intro hash ioOk i bs
    unfold receiveChunk
    rw [hnone]
  · intro hash ioOk truncOpt now
    unfold completeTransfer
    rw [hnone]
  · unfold cancelTransfer
    rw [hnone]
  · unfold getTransferStatus
    rw [hnone]
    rfl

/-- Claim C7: once a session id has been removed — by a successful
`complete_transfer` or by `cancel_transfer` — every subsequent operation
on that id fails: `receive_chunk`, `complete_transfer` and
`cancel_transfer` return `TransferNotFound` and `get_transfer_status`
returns nothing. -/
theorem removed_session_unreachable (hash : List Nat → String)
    (m : TransferManager) (ioOk : Bool) (truncOpt : Option (List Nat))
    (now : String) (tid : String) :
    (∀ (md : TransferMetadata) (mc : TransferManager),
        completeTransfer hash m ioOk truncOpt now tid =
          (Except.ok md, mc) → rejectsAllOps mc tid) ∧
    (∀ mc : TransferManager,
        cancelTransfer m tid = (Except.ok (), mc) →
          rejectsAllOps mc tid) := by
  constructor
  · intro md mc hcomp
    apply rejectsAllOps_of_mapGet_none
    unfold completeTransfer at hcomp
    rcases hfind : mapGet tid m.transfers with _ | t
    · rw [hfind] at hcomp
      exact absurd (congrArg Prod.fst hcomp) (by simp)
    · rw [hfind] at hcomp
      simp only [] at hcomp
      by_cases hc : t.received_chunks.length ≠ t.metadata.total_chunks
      · rw [if_pos hc] at hcomp
        exact absurd (congrArg Prod.fst hcomp) (by simp)
      · rw [if_neg hc] at hcomp
        rcases hra : reassembleChunks t with _ | content
        · rw [hra] at hcomp
          exact absurd (congrArg Prod.fst hcomp) (by simp)
        · rw [hra] at hcomp
          simp only [] at hcomp
          by_cases hio : ioOk = false
          · rw [if_pos hio] at hcomp
            exact absurd (congrArg Prod.fst hcomp) (by simp)
          · rw [if_neg hio] at hcomp
            have hmc := congrArg Prod.snd hcomp
            simp only [] at hmc
            rw [← hmc]
            exact mapGet_mapRemove_self tid m.transfers
  · intro mc hcanc
    apply rejectsAllOps_of_mapGet_none
    unfold cancelTransfer at hcanc
    rcases hfind : mapGet tid m.transfers with _ | t
    · rw [hfind] at hcanc
      exact absurd (congrArg Prod.fst hcanc) (by simp)
    · rw [hfind] at hcanc
      have hmc := congrArg Prod.snd hcanc
      simp only [] at hmc
      rw [← hmc]
      exact mapGet_mapRemove_self tid m.transfers

/-- Session fixture ready for completion: one expected chunk, received. -/
def wTransferFull : Transfer :=
  { metadata :=
      { id := "trans_1", filename := "f.bin", total_size := 5,
        chunk_size := 5, total_chunks := 1, batch_id := none,
        created_at := "t0", status := TransferStatus.InProgress 1 },
    received_chunks := [(0, { index := 0, hash := "h5", size := 5 })],
    tempFiles := [(0, [1, 2, 3, 4, 5])] }

/-- Manager fixture holding only `wTransferFull`. -/
def wManagerFull : TransferManager :=
  { transfers := [("trans_1", wTransferFull)], completed_uploads := [],
    storage := [] }

/-- Metadata returned by completing `wTransferFull`. -/
def wMdDone : TransferMetadata :=
  { id := "trans_1", filename := "f.bin", total_size := 5, chunk_size := 5,
    total_chunks := 1, batch_id := none, created_at := "t0",
    status := TransferStatus.Completed "h5" }

/-- History record appended by completing `wTransferFull`. -/
def wRecDone : CompletedUpload :=
  { batch_id := "single_trans_1", name := "f.bin", size := 5,
    uploaded_at := "t1" }

/-- Manager left after completing `wTransferFull`. -/
def wMcDone : TransferManager :=
  { transfers := [], completed_uploads := [wRecDone],
    storage := [("f.bin", [1, 2, 3, 4, 5])] }

/-- Manager left after cancelling the session of `wManager1`. -/
def wMcCanc : TransferManager :=
  { transfers := [], completed_uploads := [], storage := [] }

/-- Witness for `removed_session_unreachable`: a concrete completion and
a concrete cancellation, each followed by rejected operations. -/
theorem removed_session_unreachable_witness :
    (completeTransfer wHash wManagerFull true none "t1" "trans_1" =
       (Except.ok wMdDone, wMcDone) ∧ rejectsAllOps wMcDone "trans_1") ∧
    (cancelTransfer wManager1 "trans_1" = (Except.ok (), wMcCanc) ∧
       rejectsAllOps wMcCanc "trans_1") := by
  have h1 : completeTransfer wHash wManagerFull true none "t1" "trans_1" =
      (Except.ok wMdDone, wMcDone) := by decide
  have h2 : cancelTransfer wManager1 "trans_1" =
      (Except.ok (), wMcCanc) := by decide
  exact ⟨⟨h1, (removed_session_unreachable wHash wManagerFull true none
      "t1" "trans_1").1 wMdDone wMcDone h1⟩,
    ⟨h2, (removed_session_unreachable wHash wManager1 true none
      "t1" "trans_1").2 wMcCanc h2⟩⟩

/-! ## Claim C4: uniqueness of session ids -/

theorem natRepr_data_inj (a b : Nat)
    (h : (Nat.repr a).data = (Nat.repr b).data) : a = b := by
  have hl : Nat.toDigits 10 a = Nat.toDigits 10 b := by
    unfold Nat.repr at h
    simpa [List.asString] using h
  calc a = strVal (Nat.toDigits 10 a) := (strVal_toDigits a).symm
    _ = strVal (Nat.toDigits 10 b) := by rw [hl]
    _ = b := strVal_toDigits b

theorem mkTransferId_injective : Function.Injective mkTransferId := by
  intro a b hab
  unfold mkTransferId at hab
  have hdata := congrArg String.data hab
  rw [String.data_append, String.data_append] at hdata
  exact natRepr_data_inj a b (List.append_cancel_left hdata)

/-- Claim C4 (counterexample): two successful `init_transfer` calls that
happen in the same millisecond return the same session id (and the second
silently replaces the first session in the registry), so ids are not
unique regardless of timing. -/
theorem sessionId_collision_counterexample :
    (initTransfer ⟨[], [], []⟩ 5 "t0" "a.bin" 10 5 none).1 =
      Except.ok "trans_5" ∧
    (initTransfer (initTransfer ⟨[], [], []⟩ 5 "t0" "a.bin" 10 5 none).2
        5 "t1" "b.bin" 10 5 none).1 = Except.ok "trans_5" := by
  constructor
  · decide
  · decide

/-- Claim C4 (amended): two successful `init_transfer` calls whose
millisecond timestamps differ return distinct session ids (the id is
`trans_` followed by the decimal millisecond timestamp, so ids collide
exactly when the calls fall in the same millisecond). -/
theorem sessionId_distinct_of_distinct_millis
    (m1 m2 : TransferManager) (t1 t2 : Nat) (now1 now2 : String)
    (f1 f2 : String) (s1 s2 c1 c2 : Nat) (b1 b2 : Option String)
    (id1 id2 : String) (hne : ¬ t1 = t2)
    (h1 : (initTransfer m1 t1 now1 f1 s1 c1 b1).1 = Except.ok id1)
    (h2 : (initTransfer m2 t2 now2 f2 s2 c2 b2).1 = Except.ok id2) :
    ¬ id1 = id2 := by
  have hid1 : id1 = mkTransferId t1 := by
    unfold initTransfer at h1
    by_cases hc : c1 = 0
    · rw [if_pos hc] at h1
      exact absurd h1 (by simp)
    · rw [if_neg hc] at h1
      simpa using h1.symm
  have hid2 : id2 = mkTransferId t2 := by
    unfold initTransfer at h2
    by_cases hc : c2 = 0
    · rw [if_pos hc] at h2
      exact absurd h2 (by simp)
    · rw [if_neg hc] at h2
      simpa using h2.symm
  rw [hid1, hid2]
  intro heq
  exact hne (mkTransferId_injective heq)

/-- Witness for `sessionId_distinct_of_distinct_millis` at millisecond
timestamps 1 and 2. -/
theorem sessionId_distinct_witness :
    (¬ (1 : Nat) = 2 ∧
     (initTransfer ⟨[], [], []⟩ 1 "t0" "a.bin" 10 5 none).1 =
       Except.ok "trans_1" ∧
     (initTransfer ⟨[], [], []⟩ 2 "t1" "b.bin" 10 5 none).1 =
       Except.ok "trans_2") ∧
    ¬ ("trans_1" : String) = "trans_2" := by
  refine ⟨⟨by decide, by decide, by decide⟩, ?_⟩
  exact sessionId_distinct_of_distinct_millis ⟨[], [], []⟩ ⟨[], [], []⟩
    1 2 "t0" "t1" "a.bin" "b.bin" 10 10 5 5 none none
    "trans_1" "trans_2" (by decide) (by decide) (by decide)

/-! ## Evaluation lemmas for `completeTransfer` -/

theorem completeTransfer_success_eq (hash : List Nat → String)
    (m : TransferManager) (truncOpt : Option (List Nat)) (now : String)
    (tid : String) (t : Transfer) (content : List Nat)
    (hfind : mapGet tid m.transfers = some t)
    (hcount : ¬ t.received_chunks.length ≠ t.metadata.total_chunks)
    (hra : reassembleChunks t = some content) :
    completeTransfer hash m true truncOpt now tid =
      (Except.ok { t.metadata with
          status := TransferStatus.Completed (hash content) },
       TransferManager.mk (mapRemove tid m.transfers)
         (m.completed_uploads ++
           [CompletedUpload.mk
             (t.metadata.batch_id.getD ("single_" ++ t.metadata.id))
             t.metadata.filename t.metadata.total_size now])
         (mapInsert t.metadata.filename content m.storage)) := by
  unfold completeTransfer
  simp only [hfind]
  rw [if_neg hcount, hra]
  rfl

/-! ## Claim C3: reassembly I/O failure preserves the session -/

theorem keys_full_of_wf (t : Transfer) (hwf : TransferWF t)
    (hcount : t.received_chunks.length = t.metadata.total_chunks) :
    (t.received_chunks.map Prod.fst).toFinset =
      Finset.range t.metadata.total_chunks := by
  apply keys_full_of_length_eq _ _ hwf.1
  · intro x hx
    rw [List.mem_map] at hx
    rcases hx with ⟨p, hp, hpx⟩
    rw [← hpx]
    exact hwf.2.1 p hp
  · rw [List.length_map]
    exact hcount

/-- Claim C3: when `complete_transfer` fails with an I/O error during
reassembly, the session is neither removed from the registry nor marked
`Completed`, no `CompletedUpload` is appended, its stored chunk records
and scratch bytes remain exactly as they were, its status remains the
prior `InProgress` one, and a retry of `complete_transfer` with working
I/O succeeds without re-uploading chunks. -/
theorem ioFailure_preserves_session (hash : List Nat → String)
    (m : TransferManager) (truncOpt : Option (List Nat))
    (now now' : String) (tid : String) (t : Transfer) (k : Nat)
    (hfind : mapGet tid m.transfers = some t)
    (hwf : TransferWF t)
    (hcount : t.received_chunks.length = t.metadata.total_chunks)
    (hst : t.metadata.status = TransferStatus.InProgress k) :
    ∃ mf : TransferManager,
      completeTransfer hash m false truncOpt now tid =
        (Except.error (TransferError.IoError "reassembly failed"), mf) ∧
      mapGet tid mf.transfers = some t ∧
      t.metadata.status = TransferStatus.InProgress k ∧
      mf.completed_uploads = m.completed_uploads ∧
      (∃ (md : TransferMetadata) (mf2 : TransferManager),
        completeTransfer hash mf true truncOpt now' tid =
          (Except.ok md, mf2)) := by
  have hra := reassembleChunks_isSome t hwf (keys_full_of_wf t hwf hcount)
  refine ⟨{ m with storage := (match truncOpt with
      | none => m.storage
      | some bs => mapInsert t.metadata.filename bs m.storage) },
    ?_, ?_, hst, rfl, ?_⟩
  · unfold completeTransfer
    simp only [hfind]
    rw [if_neg (by omega), hra]
    rfl
  · exact hfind
  · exact ⟨_, _, completeTransfer_success_eq hash _ truncOpt now' tid t _
      hfind (by omega) hra⟩

/-- Witness for `ioFailure_preserves_session` on `wManagerFull` (the
destination file was never created, so `truncOpt = none`). -/
theorem ioFailure_preserves_session_witness :
    (mapGet "trans_1" wManagerFull.transfers = some wTransferFull ∧
     TransferWF wTransferFull ∧
     wTransferFull.received_chunks.length =
       wTransferFull.metadata.total_chunks ∧
     wTransferFull.metadata.status = TransferStatus.InProgress 1) ∧
    ∃ mf : TransferManager,
      completeTransfer wHash wManagerFull false none "t1" "trans_1" =
        (Except.error (TransferError.IoError "reassembly failed"), mf) ∧
      mapGet "trans_1" mf.transfers = some wTransferFull ∧
      wTransferFull.metadata.status = TransferStatus.InProgress 1 ∧
      mf.completed_uploads = wManagerFull.completed_uploads ∧
      (∃ (md : TransferMetadata) (mf2 : TransferManager),
        completeTransfer wHash mf true none "t2" "trans_1" =
          (Except.ok md, mf2)) := by
  refine ⟨⟨by decide, by decide, by decide, by decide⟩, ?_⟩
  exact ioFailure_preserves_session wHash wManagerFull none "t1" "t2"
    "trans_1" wTransferFull 1 (by decide) (by decide) (by decide)
    (by decide)

/-! ## Claim C1: completion succeeds exactly on the full index set -/

/-- Claim C1: with working I/O, `complete_transfer` succeeds — returning
metadata marked `Completed` — if and only if the set of distinct received
chunk indices equals `{0 .. total_chunks-1}`; and whenever the distinct
received-index count is below `total_chunks` it fails with the
incomplete-transfer error carrying expected (`total_chunks`) and actual
(received count). -/
theorem completeTransfer_success_iff_full (hash : List Nat → String)
    (m : TransferManager) (truncOpt : Option (List Nat)) (now : String)
    (tid : String) (t : Transfer)
    (hfind : mapGet tid m.transfers = some t)
    (hwf : TransferWF t) :
    ((∃ (md : TransferMetadata) (mf : TransferManager),
        completeTransfer hash m true truncOpt now tid =
          (Except.ok md, mf) ∧
        ∃ h : String, md.status = TransferStatus.Completed h) ↔
      (t.received_chunks.map Prod.fst).toFinset =
        Finset.range t.metadata.total_chunks) ∧
    (t.received_chunks.length < t.metadata.total_chunks →
      completeTransfer hash m true truncOpt now tid =
        (Except.error (TransferError.ChunkOutOfOrder
          t.metadata.total_chunks t.received_chunks.length), m)) := by
  constructor
  · constructor
    · rintro ⟨md, mf, hcomp, h, hmd⟩
      by_cases hc : t.received_chunks.length = t.metadata.total_chunks
      · exact keys_full_of_wf t hwf hc
      · exfalso
        unfold completeTransfer at hcomp
        rw [hfind] at hcomp
        simp only [] at hcomp
        rw [if_pos hc] at hcomp
        exact Except.noConfusion (congrArg Prod.fst hcomp)
    · intro hfull
      have hcount : t.received_chunks.length = t.metadata.total_chunks := by
        have := length_eq_of_keys_full (t.received_chunks.map Prod.fst)
          t.metadata.total_chunks hwf.1 hfull
        rw [List.length_map] at this
        exact this
      have hra := reassembleChunks_isSome t hwf hfull
      exact ⟨_, _, completeTransfer_success_eq hash m truncOpt now tid t _
        hfind (by omega) hra, _, rfl⟩
  · intro hlt
    unfold completeTransfer
    simp only [hfind]
    rw [if_pos (by omega)]

/-- Witness for `completeTransfer_success_iff_full` on `wManagerFull`. -/
theorem completeTransfer_success_iff_full_witness :
    (mapGet "trans_1" wManagerFull.transfers = some wTransferFull ∧
     TransferWF wTransferFull) ∧
    (((∃ (md : TransferMetadata) (mf : TransferManager),
        completeTransfer wHash wManagerFull true none "t1" "trans_1" =
          (Except.ok md, mf) ∧
        ∃ h : String, md.status = TransferStatus.Completed h) ↔
      (wTransferFull.received_chunks.map Prod.fst).toFinset =
        Finset.range wTransferFull.metadata.total_chunks) ∧
    (wTransferFull.received_chunks.length <
        wTransferFull.metadata.total_chunks →
      completeTransfer wHash wManagerFull true none "t1" "trans_1" =
        (Except.error (TransferError.ChunkOutOfOrder
          wTransferFull.metadata.total_chunks
          wTransferFull.received_chunks.length), wManagerFull))) := by
  refine ⟨⟨by decide, by decide⟩, ?_⟩
  exact completeTransfer_success_iff_full wHash wManagerFull none "t1"
    "trans_1" wTransferFull (by decide) (by decide)

/-! ## Claim C2: reassembled content and final hash -/

/-- Apply a list of `(index, bytes)` submissions through `receive_chunk`
(with working I/O), in the given order. -/
def submitAll (hash : List Nat → String) (m : TransferManager)
    (tid : String) : List (Nat × List Nat) → TransferManager
  | [] => m
  | (i, bs) :: rest =>
      submitAll hash (receiveChunk hash m true tid i bs).2 tid rest

/-- Most recently submitted bytes for an index, if any. -/
def lastSubmitted (subs : List (Nat × List Nat)) (i : Nat) :
    Option (List Nat) :=
  ((subs.filter (fun p => p.1 == i)).getLast?).map Prod.snd

/-- Concatenation, in ascending index order `0 .. n-1`, of the most
recently submitted bytes for each index. -/
def orderedConcat (subs : List (Nat × List Nat)) (n : Nat) : List Nat :=
  ((List.range n).map (fun i => (lastSubmitted subs i).getD [])).flatten

theorem mem_mapInsert {κ α : Type} [BEq κ] [LawfulBEq κ]
    (k : κ) (v : α) (l : List (κ × α)) :
    ∀ p ∈ mapInsert k v l, p = (k, v) ∨ (p ∈ l ∧ ¬ p.1 = k) := by
  intro p hp
  unfold mapInsert at hp
  by_cases hany : l.any (fun q => q.1 == k) = true
  · rw [if_pos hany] at hp
    rw [List.mem_map] at hp
    rcases hp with ⟨q, hq, hqe⟩
    by_cases hqk : (q.1 == k) = true
    · rw [if_pos hqk] at hqe
      left
      exact hqe.symm
    · rw [if_neg hqk] at hqe
      right
      rw [← hqe]
      exact ⟨hq, fun he => hqk (beq_iff_eq.mpr he)⟩
  · rw [if_neg hany] at hp
    rw [List.mem_append] at hp
    rcases hp with hp | hp
    · right
      refine ⟨hp, fun he => hany ?_⟩
      exact List.any_eq_true.mpr ⟨p, hp, beq_iff_eq.mpr he⟩
    · left
      simpa using hp

theorem keys_nodup_mapInsert {κ α : Type} [BEq κ] [LawfulBEq κ]
    (k : κ) (v : α) (l : List (κ × α))
    (h : (l.map Prod.fst).Nodup) :
    ((mapInsert k v l).map Prod.fst).Nodup := by
  by_cases hany : l.any (fun q => q.1 == k) = true
  · rw [keys_mapInsert_of_mem k v l hany]
    exact h
  · rw [keys_mapInsert_of_not_mem k v l hany]
    rw [List.nodup_append]
    refine ⟨h, List.nodup_singleton k, ?_⟩
    intro x hx hk
    rw [List.mem_singleton] at hk
    subst hk
    rw [List.mem_map] at hx
    rcases hx with ⟨p, hp, hpx⟩
    exact (Bool.eq_false_iff.mp (Bool.eq_false_iff.mpr
      (fun hc => hany (List.any_eq_true.mpr
        ⟨p, hp, by rw [hpx]; exact beq_self_eq_true x⟩)))) rfl

theorem mem_keys_of_mapGet_ne_none {α : Type} {l : List (Nat × α)}
    {i : Nat} (h : mapGet i l ≠ none) : i ∈ l.map Prod.fst := by
  rw [mapGet_ne_none_iff_any] at h
  rcases List.any_eq_true.mp h with ⟨p, hp, hpe⟩
  rw [List.mem_map]
  exact ⟨p, hp, beq_iff_eq.mp hpe⟩

theorem lastSubmitted_append_single (subs : List (Nat × List Nat))
    (i j : Nat) (bs : List Nat) :
    lastSubmitted (subs ++ [(i, bs)]) j =
      if j = i then some bs else lastSubmitted subs j := by
  unfold lastSubmitted
  rw [List.filter_append]
  by_cases h : j = i
  · subst h
    have hf : (([(j, bs)] : List (Nat × List Nat)).filter
        (fun p => p.1 == j)) = [(j, bs)] := by simp
    rw [hf, if_pos rfl, List.getLast?_concat]
    rfl
  · have hf : (([(i, bs)] : List (Nat × List Nat)).filter
        (fun p => p.1 == j)) = [] := by
      simp only [List.filter_cons, List.filter_nil]
      rw [if_neg]
      intro hc
      exact h (beq_iff_eq.mp hc).symm
    rw [hf, List.append_nil, if_neg h]

theorem submitAll_append_single (hash : List Nat → String)
    (m : TransferManager) (tid : String) (subs : List (Nat × List Nat))
    (i : Nat) (bs : List Nat) :
    submitAll hash m tid (subs ++ [(i, bs)]) =
      (receiveChunk hash (submitAll hash m tid subs) true tid i bs).2 := by
  induction subs generalizing m with
  | nil => rfl
  | cons y ys ih =>
    rcases y with ⟨j, cs⟩
    simp only [List.cons_append, submitAll]
    exact ih _

theorem receiveChunk_success_eq (hash : List Nat → String)
    (m : TransferManager) (tid : String) (i : Nat) (bs : List Nat)
    (t : Transfer) (hfind : mapGet tid m.transfers = some t)
    (hidx : i < t.metadata.total_chunks) :
    receiveChunk hash m true tid i bs =
      (Except.ok (hash bs),
       { m with transfers := (mapInsert tid (applyChunk hash t i bs)
           m.transfers) }) := by
  unfold receiveChunk
  simp only [hfind]
  rw [if_neg (Nat.not_le.mpr hidx)]
  rfl

theorem submitAll_state (hash : List Nat → String) (m : TransferManager)
    (tid : String) (t0 : Transfer) (subs : List (Nat × List Nat))
    (hfind : mapGet tid m.transfers = some t0)
    (hrc : t0.received_chunks = []) (htf : t0.tempFiles = [])
    (hvalid : ∀ p ∈ subs, p.1 < t0.metadata.total_chunks) :
    ∃ t : Transfer,
      mapGet tid (submitAll hash m tid subs).transfers = some t ∧
      (∃ st : TransferStatus,
        t.metadata = { t0.metadata with status := st }) ∧
      TransferWF t ∧
      (∀ i : Nat, mapGet i t.tempFiles = lastSubmitted subs i) ∧
      (∀ i : Nat, mapGet i t.received_chunks = none ↔
        lastSubmitted subs i = none) := by
  revert hvalid
  induction subs using List.reverseRecOn with
  | nil =>
    intro _
    refine ⟨t0, hfind, ⟨t0.metadata.status, rfl⟩, ?_, ?_, ?_⟩
    · refine ⟨?_, ?_, ?_⟩
      · rw [hrc]; exact List.nodup_nil
      · rw [hrc]; intro p hp; exact absurd hp (List.not_mem_nil p)
      · rw [hrc]; intro p hp; exact absurd hp (List.not_mem_nil p)
    · intro i
      rw [htf]
      rfl
    · intro i
      rw [hrc]
      exact ⟨fun _ => rfl, fun _ => rfl⟩
  | append_singleton ys x ih =>
    intro hvalid
    rcases x with ⟨i, bs⟩
    have hvys : ∀ p ∈ ys, p.1 < t0.metadata.total_chunks := by
      intro p hp
      exact hvalid p (List.mem_append_left _ hp)
    have hvi : i < t0.metadata.total_chunks :=
      hvalid (i, bs) (List.mem_append_right _ (List.mem_singleton.mpr rfl))
    obtain ⟨t, hft, ⟨st, hmeta⟩, hwf, htemp, hriff⟩ := ih hvys
    have hidx : i < t.metadata.total_chunks := by
      rw [hmeta]
      exact hvi
    rw [submitAll_append_single,
      receiveChunk_success_eq hash _ tid i bs t hft hidx]
    refine ⟨applyChunk hash t i bs, mapGet_mapInsert_self tid _ _,
      ?_, ?_, ?_, ?_⟩
    · refine ⟨TransferStatus.InProgress ((mapInsert i
        (ChunkInfo.mk i (hash bs) bs.length) t.received_chunks).length), ?_⟩
      show ({ t.metadata with status := TransferStatus.InProgress _ }
        : TransferMetadata) = _
      rw [hmeta]
    · refine ⟨?_, ?_, ?_⟩
      · exact keys_nodup_mapInsert i _ t.received_chunks hwf.1
      · intro p hp
        rcases mem_mapInsert i _ t.received_chunks p hp with hpe | ⟨hpl, _⟩
        · rw [hpe]
          exact hidx
        · exact hwf.2.1 p hpl
      · intro p hp
        rcases mem_mapInsert i _ t.received_chunks p hp with hpe | ⟨hpl, hpk⟩
        · rw [hpe]
          show mapGet i (mapInsert i bs t.tempFiles) ≠ none
          rw [mapGet_mapInsert_self]
          intro hc
          exact Option.noConfusion hc
        · show mapGet p.1 (mapInsert i bs t.tempFiles) ≠ none
          rw [mapGet_mapInsert_ne i p.1 bs t.tempFiles hpk]
          exact hwf.2.2 p hpl
    · intro j
      show mapGet j (mapInsert i bs t.tempFiles) = _
      rw [lastSubmitted_append_single]
      by_cases hj : j = i
      · subst hj
        rw [if_pos rfl]
        exact mapGet_mapInsert_self j bs t.tempFiles
      · rw [if_neg hj, mapGet_mapInsert_ne i j bs t.tempFiles hj]
        exact htemp j
    · intro j
      show (mapGet j (mapInsert i _ t.received_chunks) = none) ↔ _
      rw [lastSubmitted_append_single]
      by_cases hj : j = i
      · subst hj
        rw [if_pos rfl, mapGet_mapInsert_self]
        exact ⟨fun h => Option.noConfusion h, fun h => Option.noConfusion h⟩
      · rw [if_neg hj, mapGet_mapInsert_ne i j _ t.received_chunks hj]
        exact hriff j

/-- Claim C2: if every index `0 .. total_chunks-1` of a fresh session has
been submitted at least once — in any order, possibly with resends — then
`complete_transfer` succeeds, the reassembled file stored under the
session's filename equals the concatenation, in ascending index order, of
the most recently submitted bytes for each index, and the `Completed`
status carries the digest of exactly that concatenated byte sequence. -/
theorem completed_content_is_ordered_concat (hash : List Nat → String)
    (m : TransferManager) (tid : String) (t0 : Transfer)
    (subs : List (Nat × List Nat)) (truncOpt : Option (List Nat))
    (now : String)
    (hfind : mapGet tid m.transfers = some t0)
    (hrc : t0.received_chunks = []) (htf : t0.tempFiles = [])
    (hvalid : ∀ p ∈ subs, p.1 < t0.metadata.total_chunks)
    (hcover : ∀ i, i < t0.metadata.total_chunks →
      ¬ lastSubmitted subs i = none) :
    ∃ (md : TransferMetadata) (mf : TransferManager),
      completeTransfer hash (submitAll hash m tid subs) true truncOpt now
        tid = (Except.ok md, mf) ∧
      mapGet t0.metadata.filename mf.storage =
        some (orderedConcat subs t0.metadata.total_chunks) ∧
      md.status = TransferStatus.Completed
        (hash (orderedConcat subs t0.metadata.total_chunks)) := by
  obtain ⟨t, hft, ⟨st, hmeta⟩, hwf, htemp, hriff⟩ :=
    submitAll_state hash m tid t0 subs hfind hrc htf hvalid
  have hntc : t.metadata.total_chunks = t0.metadata.total_chunks := by
    rw [hmeta]
  have hfn : t.metadata.filename = t0.metadata.filename := by
    rw [hmeta]
  have hfull : (t.received_chunks.map Prod.fst).toFinset =
      Finset.range t.metadata.total_chunks := by
    apply Finset.Subset.antisymm
    · intro x hx
      rw [List.mem_toFinset, List.mem_map] at hx
      rcases hx with ⟨p, hp, hpx⟩
      rw [Finset.mem_range, ← hpx]
      exact hwf.2.1 p hp
    · intro x hx
      rw [Finset.mem_range, hntc] at hx
      have hx1 : ¬ lastSubmitted subs x = none := hcover x hx
      have hx2 : mapGet x t.received_chunks ≠ none := by
        intro hc
        exact hx1 ((hriff x).mp hc)
      rw [List.mem_toFinset]
      exact mem_keys_of_mapGet_ne_none hx2
  have hcount : t.received_chunks.length = t.metadata.total_chunks := by
    have := length_eq_of_keys_full (t.received_chunks.map Prod.fst)
      t.metadata.total_chunks hwf.1 hfull
    rw [List.length_map] at this
    exact this
  have hra := reassembleChunks_isSome t hwf hfull
  have hcontent : ((List.range t.metadata.total_chunks).map
      (fun i => (mapGet i t.tempFiles).getD [])).flatten =
      orderedConcat subs t0.metadata.total_chunks := by
    rw [hntc]
    unfold orderedConcat
    congr 1
    apply List.map_congr_left
    intro a _
    rw [htemp a]
  refine ⟨_, _, completeTransfer_success_eq hash _ truncOpt now tid t _
    hft (not_ne_iff.mpr hcount) hra, ?_, ?_⟩
  · show mapGet t0.metadata.filename
      (mapInsert t.metadata.filename _ (submitAll hash m tid subs).storage)
        = _
    rw [hfn, mapGet_mapInsert_self, hcontent]
  · show TransferStatus.Completed _ = _
    rw [hcontent]

/-- Fresh two-chunk session fixture for the C2 witness. -/
def wTransferFresh : Transfer :=
  { metadata :=
      { id := "trans_9", filename := "g.bin", total_size := 5,
        chunk_size := 3, total_chunks := 2, batch_id := none,
        created_at := "t0", status := TransferStatus.Pending },
    received_chunks := [], tempFiles := [] }

/-- Manager fixture holding only `wTransferFresh`. -/
def wManagerFresh : TransferManager :=
  { transfers := [("trans_9", wTransferFresh)], completed_uploads := [],
    storage := [] }

/-- Out-of-order submissions for the C2 witness: index 1 first. -/
def wSubs : List (Nat × List Nat) := [(1, [7, 8]), (0, [1, 2, 3])]

/-- Witness for `completed_content_is_ordered_concat`: chunks submitted
out of order still reassemble as `[1,2,3] ++ [7,8]`. -/
theorem completed_content_is_ordered_concat_witness :
    (mapGet "trans_9" wManagerFresh.transfers = some wTransferFresh ∧
     wTransferFresh.received_chunks = [] ∧
     wTransferFresh.tempFiles = [] ∧
     (∀ p ∈ wSubs, p.1 < wTransferFresh.metadata.total_chunks) ∧
     (∀ i, i < wTransferFresh.metadata.total_chunks →
       ¬ lastSubmitted wSubs i = none)) ∧
    ∃ (md : TransferMetadata) (mf : TransferManager),
      completeTransfer wHash (submitAll wHash wManagerFresh "trans_9" wSubs)
          true none "t1" "trans_9" = (Except.ok md, mf) ∧
      mapGet wTransferFresh.metadata.filename mf.storage =
        some (orderedConcat wSubs wTransferFresh.metadata.total_chunks) ∧
      md.status = TransferStatus.Completed
        (wHash (orderedConcat wSubs wTransferFresh.metadata.total_chunks))
    := by
  refine ⟨⟨by decide, by decide, by decide, by decide, by decide⟩, ?_⟩
  exact completed_content_is_ordered_concat wHash wManagerFresh "trans_9"
    wTransferFresh wSubs none "t1" (by decide) (by decide) (by decide)
    (by decide) (by decide)

/-! ## Claim C10: grouping of completed uploads into batches -/

theorem uploadLe_trans : ∀ a b c : CompletedUpload,
    uploadLe a b → uploadLe b c → uploadLe a c := by
  intro a b c hab hbc
  simp only [uploadLe, decide_eq_true_eq] at hab hbc ⊢
  exact le_trans hab hbc

theorem uploadLe_total : ∀ a b : CompletedUpload,
    uploadLe a b || uploadLe b a := by
  intro a b
  simp only [uploadLe, Bool.or_eq_true, decide_eq_true_eq]
  exact le_total _ _

theorem batchDescLe_trans : ∀ a b c : UploadBatch,
    batchDescLe a b → batchDescLe b c → batchDescLe a c := by
  intro a b c hab hbc
  simp only [batchDescLe, decide_eq_true_eq] at hab hbc ⊢
  exact le_trans hbc hab

theorem batchDescLe_total : ∀ a b : UploadBatch,
    batchDescLe a b || batchDescLe b a := by
  intro a b
  simp only [batchDescLe, Bool.or_eq_true, decide_eq_true_eq]
  exact le_total _ _

theorem sorted_le_getLast (l : List CompletedUpload) :
    ∀ (hne : l ≠ [])
      (_ : l.Pairwise (fun a b => a.uploaded_at ≤ b.uploaded_at)),
      ∀ x ∈ l, x.uploaded_at ≤ (l.getLast hne).uploaded_at := by
  induction l with
  | nil => intro hne; exact absurd rfl hne
  | cons a t ih =>
    intro hne hs x hx
    cases t with
    | nil =>
      rw [List.mem_singleton] at hx
      subst hx
      exact le_refl _
    | cons b t' =>
      rw [List.getLast_cons (by simp)]
      rcases List.mem_cons.mp hx with hxa | hxt
      · subst hxa
        have hhead := (List.pairwise_cons.mp hs).1
        have hlast_mem := List.getLast_mem (l := b :: t') (by simp)
        exact hhead _ hlast_mem
      · exact ih (by simp) (List.pairwise_cons.mp hs).2 x hxt

/-- File-record conversion used by `list_upload_batches`. -/
def toUploadedFile (f : CompletedUpload) : UploadedFile :=
  UploadedFile.mk f.name f.size f.uploaded_at

theorem mkBatch_spec (m : TransferManager) (nowRfc bid : String)
    (hne : ∃ u ∈ m.completed_uploads, u.batch_id = bid) :
    ((mkBatch m nowRfc bid).files).Perm
      ((m.completed_uploads.filter (fun u => u.batch_id == bid)).map
        toUploadedFile) ∧
    (mkBatch m nowRfc bid).files.Pairwise
      (fun f g => f.uploaded_at ≤ g.uploaded_at) ∧
    (∀ f ∈ (mkBatch m nowRfc bid).files,
      f.uploaded_at ≤ (mkBatch m nowRfc bid).uploaded_at) ∧
    (∃ f ∈ (mkBatch m nowRfc bid).files,
      f.uploaded_at = (mkBatch m nowRfc bid).uploaded_at) := by
  rcases hne with ⟨u, hu, hubid⟩
  have humem : u ∈ m.completed_uploads.filter (fun v => v.batch_id == bid) :=
    List.mem_filter_of_mem hu (by simp [hubid])
  have hgfne : groupFiles m bid ≠ [] := by
    unfold groupFiles
    intro hc
    have := List.length_eq_zero.mpr hc
    rw [List.length_mergeSort] at this
    exact absurd (List.length_eq_zero.mp this)
      (List.ne_nil_of_mem humem)
  have hsortedB := List.sorted_mergeSort uploadLe_trans uploadLe_total
    (m.completed_uploads.filter (fun v => v.batch_id == bid))
  have hsorted : (groupFiles m bid).Pairwise
      (fun a b => a.uploaded_at ≤ b.uploaded_at) := by
    refine List.Pairwise.imp ?_ hsortedB
    intro a b h
    simpa [uploadLe] using h
  have hlast : (groupFiles m bid).getLast? =
      some ((groupFiles m bid).getLast hgfne) :=
    List.getLast?_eq_getLast _ hgfne
  have hup : (mkBatch m nowRfc bid).uploaded_at =
      ((groupFiles m bid).getLast hgfne).uploaded_at := by
    unfold mkBatch
    rw [hlast]
    rfl
  refine ⟨?_, ?_, ?_, ?_⟩
  · exact List.Perm.map toUploadedFile (List.mergeSort_perm _ uploadLe)
  · exact List.pairwise_map.mpr hsorted
  · intro f hf
    rcases List.mem_map.mp hf with ⟨v, hv, hvf⟩
    rw [← hvf, hup]
    exact sorted_le_getLast (groupFiles m bid) hgfne hsorted v hv
  · refine ⟨toUploadedFile ((groupFiles m bid).getLast hgfne),
      List.mem_map_of_mem toUploadedFile (List.getLast_mem hgfne), ?_⟩
    rw [hup]
    rfl

theorem completeTransfer_appends_record (hash : List Nat → String)
    (m : TransferManager) (truncOpt : Option (List Nat))
    (now tid : String) (t : Transfer) (md : TransferMetadata)
    (mf : TransferManager)
    (hfind : mapGet tid m.transfers = some t)
    (hcomp : completeTransfer hash m true truncOpt now tid =
      (Except.ok md, mf)) :
    mf.completed_uploads = m.completed_uploads ++
      [CompletedUpload.mk
        (t.metadata.batch_id.getD ("single_" ++ t.metadata.id))
        t.metadata.filename t.metadata.total_size now] := by
  unfold completeTransfer at hcomp
  rw [hfind] at hcomp
  simp only [] at hcomp
  by_cases hc : t.received_chunks.length ≠ t.metadata.total_chunks
  · rw [if_pos hc] at hcomp
    exact absurd (congrArg Prod.fst hcomp) (by simp)
  · rw [if_neg hc] at hcomp
    rcases hra : reassembleChunks t with _ | content
    · rw [hra] at hcomp
      exact absurd (congrArg Prod.fst hcomp) (by simp)
    · rw [hra] at hcomp
      simp only [] at hcomp
      rw [if_neg (by decide)] at hcomp
      have hmf := congrArg Prod.snd hcomp
      simp only [] at hmf
      rw [← hmf]

/-- Claim C10: `list_upload_batches` returns exactly one entry per
distinct batch id; each entry holds exactly the completed uploads sharing
that id, ordered ascending by completion time, and its `uploaded_at` is
its latest file's completion time; batches are ordered descending by
`uploaded_at`; and a completed session whose caller supplied no batch id
is recorded under the synthetic batch id `single_` + session id, so every
completed upload appears in exactly one batch. -/
theorem listUploadBatches_spec (m : TransferManager) (now : String) :
    ((listUploadBatches m now).map UploadBatch.batch_id).Nodup ∧
    (∀ bid : String,
      bid ∈ (listUploadBatches m now).map UploadBatch.batch_id ↔
      bid ∈ m.completed_uploads.map CompletedUpload.batch_id) ∧
    (∀ b ∈ listUploadBatches m now,
      (b.files).Perm ((m.completed_uploads.filter
        (fun u => u.batch_id == b.batch_id)).map toUploadedFile) ∧
      b.files.Pairwise (fun f g => f.uploaded_at ≤ g.uploaded_at) ∧
      (∀ f ∈ b.files, f.uploaded_at ≤ b.uploaded_at) ∧
      (∃ f ∈ b.files, f.uploaded_at = b.uploaded_at)) ∧
    (listUploadBatches m now).Pairwise
      (fun a b => b.uploaded_at ≤ a.uploaded_at) ∧
    (∀ (hash : List Nat → String) (m' : TransferManager)
       (truncOpt : Option (List Nat)) (now' tid : String) (t : Transfer)
       (md : TransferMetadata) (mf : TransferManager),
       mapGet tid m'.transfers = some t →
       t.metadata.batch_id = none →
       completeTransfer hash m' true truncOpt now' tid =
         (Except.ok md, mf) →
       ∃ r : CompletedUpload,
         mf.completed_uploads = m'.completed_uploads ++ [r] ∧
         r.batch_id = "single_" ++ t.metadata.id) := by
  have hperm : (listUploadBatches m now).Perm
      (((m.completed_uploads.map CompletedUpload.batch_id).dedup).map
        (mkBatch m now)) := List.mergeSort_perm _ batchDescLe
  have hkeys : (((m.completed_uploads.map
      CompletedUpload.batch_id).dedup).map (mkBatch m now)).map
        UploadBatch.batch_id =
      (m.completed_uploads.map CompletedUpload.batch_id).dedup := by
    rw [List.map_map]
    have : ∀ a ∈ (m.completed_uploads.map CompletedUpload.batch_id).dedup,
        (UploadBatch.batch_id ∘ mkBatch m now) a = id a := fun a _ => rfl
    rw [List.map_congr_left this, List.map_id]
  have hkeysPerm : ((listUploadBatches m now).map UploadBatch.batch_id).Perm
      ((m.completed_uploads.map CompletedUpload.batch_id).dedup) := by
    rw [← hkeys]
    exact List.Perm.map UploadBatch.batch_id hperm
  refine ⟨?_, ?_, ?_, ?_, ?_⟩
  · rw [hkeysPerm.nodup_iff]
    exact List.nodup_dedup _
  · intro bid
    rw [hkeysPerm.mem_iff, List.mem_dedup]
  · intro b hb
    have hbpre := (hperm.mem_iff).mp hb
    rcases List.mem_map.mp hbpre with ⟨bid, hbid, hbmk⟩
    have hex : ∃ u ∈ m.completed_uploads, u.batch_id = bid := by
      rw [List.mem_dedup, List.mem_map] at hbid
      exact hbid
    rw [← hbmk]
    exact mkBatch_spec m now bid hex
  · have := List.sorted_mergeSort batchDescLe_trans batchDescLe_total
      (((m.completed_uploads.map CompletedUpload.batch_id).dedup).map
        (mkBatch m now))
    refine List.Pairwise.imp ?_ this
    intro a b h
    simpa [batchDescLe] using h
  · intro hash m' truncOpt now' tid t md mf hfind hbid hcomp
    refine ⟨CompletedUpload.mk
      (t.metadata.batch_id.getD ("single_" ++ t.metadata.id))
      t.metadata.filename t.metadata.total_size now', ?_, ?_⟩
    · exact completeTransfer_appends_record hash m' truncOpt now' tid t
        md mf hfind hcomp
    · rw [hbid]
      rfl

/-- Witness for `listUploadBatches_spec`: the synthetic-batch-id branch
exercised on the concrete completion of `wTransferFull` (which has no
caller-supplied batch id). -/
theorem listUploadBatches_spec_witness :
    (mapGet "trans_1" wManagerFull.transfers = some wTransferFull ∧
     wTransferFull.metadata.batch_id = none ∧
     completeTransfer wHash wManagerFull true none "t1" "trans_1" =
       (Except.ok wMdDone, wMcDone)) ∧
    ∃ r : CompletedUpload,
      wMcDone.completed_uploads = wManagerFull.completed_uploads ++ [r] ∧
      r.batch_id = "single_" ++ wTransferFull.metadata.id := by
  have h1 : completeTransfer wHash wManagerFull true none "t1" "trans_1" =
      (Except.ok wMdDone, wMcDone) := by decide
  refine ⟨⟨by decide, by decide, h1⟩, ?_⟩
  exact (listUploadBatches_spec wManagerFull "t1").2.2.2.2 wHash
    wManagerFull none "t1" "trans_1" wTransferFull wMdDone wMcDone
    (by decide) (by decide) h1

end Neurolink
